import Mathlib

/-!
Verification development for `gradio_i18n` (`src/gradio_i18n/i18n.py`), a
runtime internationalization layer over gradio component trees.

The embedding models Python values as follows:
* an attribute value is either a string — possibly tagged as `I18nString`,
  the marker subclass of `str` defined by the module — or an opaque
  non-string object (`Val.obj`);
* a `choices` sequence is a Python list whose elements are either two-element
  tuples (`Entry.pair display value`) or plain non-tuple scalar values
  (`Entry.plain`);
* a component's attributes are the `(name, value)` pairs that
  `inspect.getmembers` enumerates, in its (name-sorted) order, with unique
  names;
* Python generators are modelled by "run" functions returning the list of
  values the generator yields together with a completion flag that is
  `false` when consuming the generator to that point raises an exception
  (the only exception reachable inside discovery is the unpack error in the
  tuple branch of `iter_i18n_choices`; note that the `(k, v)` unpacking
  there succeeds on any two-element sequence, in particular on a plain
  two-character string, which is then skipped).
-/

set_option linter.unusedVariables false

namespace GradioI18n

/-- A Python attribute value: `Val.str s m` is a string with text `s` that is
an `I18nString` iff `m`; `Val.obj n` is an opaque non-string object. -/
inductive Val : Type where
  | str : String → Bool → Val
  | obj : Nat → Val
deriving DecidableEq

/-- `isinstance(v, I18nString)`. -/
def Val.isMarked : Val → Bool
  | .str _ m => m
  | .obj _ => false

/-- Python `==` on attribute values: an `I18nString` compares equal to its
plain text (`str.__eq__` ignores the subclass); distinct kinds of object
compare unequal. -/
def Val.pyEq : Val → Val → Bool
  | .str s _, .str t _ => s == t
  | .obj n, .obj m => n == m
  | _, _ => false

/-- An element of a `choices` list: a two-element tuple `(display, value)` or
a plain (non-tuple) value. -/
inductive Entry : Type where
  | plain : Val → Entry
  | pair : Val → Val → Entry
deriving DecidableEq

/-- `isinstance(entry, tuple)`. -/
def Entry.isPair : Entry → Bool
  | .pair _ _ => true
  | .plain _ => false

/-- Whether the tuple branch's `(k, v)` unpacking succeeds on this entry:
always for a tuple; for a plain string exactly when it has two characters
(it unpacks into its characters, which are plain one-character strings);
never for an opaque non-iterable object. -/
def Entry.unpackable : Entry → Bool
  | .pair _ _ => true
  | .plain (.str s _) => s.length == 2
  | .plain (.obj _) => false

/-- The display half of an entry: the first element of a tuple entry, or the
value itself for a plain entry (`choices[idx][0] if tuple else choices[idx]`). -/
def Entry.display : Entry → Val
  | .pair k _ => k
  | .plain v => v

/-- The opaque value half of an entry: the second element of a tuple entry,
or the value itself for a plain entry. -/
def Entry.value : Entry → Val
  | .pair _ v => v
  | .plain v => v

/-- Python `==` on entries: tuples compare componentwise, a tuple never
equals a non-tuple. -/
def Entry.pyEq : Entry → Entry → Bool
  | .plain a, .plain b => a.pyEq b
  | .pair a b, .pair c d => a.pyEq c && b.pyEq d
  | _, _ => false

/-- An attribute of a component: a scalar value, or a Python list of choice
entries (the shape the `choices` attribute of choice-bearing components
has). -/
inductive Attr : Type where
  | val : Val → Attr
  | clist : List Entry → Attr
deriving DecidableEq

/-- `isinstance(attr, I18nString)`. -/
def Attr.isI18n : Attr → Bool
  | .val v => v.isMarked
  | .clist _ => false

/-- Python `==` on attribute values (lists compare elementwise). -/
def Attr.pyEq : Attr → Attr → Bool
  | .val a, .val b => a.pyEq b
  | .clist as, .clist bs =>
      as.length == bs.length && (as.zip bs).all (fun p => p.1.pyEq p.2)
  | _, _ => false

/-- A gradio component (or block): an object identity and its named
attributes in `inspect.getmembers` order (names are unique). -/
structure Component where
  id : Nat
  attrs : List (String × Attr)
deriving DecidableEq

/-- A node of the rendered UI tree: a leaf block, or a `BlockContext` owning
an ordered list of children. -/
inductive Block : Type where
  | leaf : Component → Block
  | context : Component → List Block → Block

/-- First-match association-list lookup, i.e. Python dictionary / attribute
lookup by string key. -/
def alookup {α : Type} : List (String × α) → String → Option α
  | [], _ => none
  | (k, v) :: rest, key => if k == key then some v else alookup rest key

/-- Python dictionary assignment `d[k] = v`: overwrite in place if the key is
present, else append. -/
def ainsert {α : Type} : List (String × α) → String → α → List (String × α)
  | [], key, v => [(key, v)]
  | (k, v') :: rest, key, v =>
      if k == key then (k, v) :: rest else (k, v') :: ainsert rest key v

/-- A translation table: language code ↦ (original string ↦ translation). -/
abbrev Table := List (String × List (String × String))

/-- `table.get(lang, {}).get(key)`. -/
def tableGet (t : Table) (lang key : String) : Option String :=
  match alookup t lang with
  | some d => alookup d key
  | none => none

/-! ## `iter_i18n_choices`

```python
def iter_i18n_choices(choices):
    if not isinstance(choices, list) or len(choices) == 0:
        return
    if isinstance(choices[0], tuple):
        for i, (k, v) in enumerate(choices):
            if isinstance(k, I18nString):
                yield i
    else:
        for i, v in enumerate(choices):
            if isinstance(v, I18nString):
                yield i
```

The generator is modelled by its run: the list of indices it yields and a
flag that is `false` when it raises.  In the tuple branch the unpacking
`(k, v)` succeeds on any two-element sequence: besides tuples it also
unpacks a plain two-character string into its characters (never
`I18nString`s, so such an entry is skipped and iteration continues), and it
raises at the first element that is neither — a string of another length
(`ValueError`) or a non-iterable object (`TypeError`).  In the plain branch
every element (tuples included) is merely tested against `I18nString`,
which never raises. -/

/-- The tuple branch of `iter_i18n_choices` starting at index `n`: yields
the index of every tuple whose first element is an `I18nString`, skips a
plain two-character string (it unpacks into its characters), and stops with
an unpack error at the first entry that is neither. -/
def iterChoicesPairsFrom (n : Nat) : List Entry → List Nat × Bool
  | [] => ([], true)
  | .pair k _ :: rest =>
      let r := iterChoicesPairsFrom (n + 1) rest
      (if k.isMarked then n :: r.1 else r.1, r.2)
  | .plain (.str s _) :: rest =>
      if s.length == 2 then iterChoicesPairsFrom (n + 1) rest
      else ([], false)
  | .plain (.obj _) :: _ => ([], false)

/-- The plain branch of `iter_i18n_choices` starting at index `n`: yields the
index of every element that is itself an `I18nString` (a tuple never is). -/
def iterChoicesPlainFrom (n : Nat) : List Entry → List Nat
  | [] => []
  | e :: rest =>
      let r := iterChoicesPlainFrom (n + 1) rest
      match e with
      | .plain v => if v.isMarked then n :: r else r
      | .pair _ _ => r

/-- Full run of `iter_i18n_choices` on an attribute value: yielded indices
plus completion flag.  A non-list or empty-list input yields nothing; the
branch is chosen by whether element 0 is a tuple. -/
def iter_i18n_choices_run : Attr → List Nat × Bool
  | .val _ => ([], true)
  | .clist [] => ([], true)
  | .clist (e :: es) =>
      match e with
      | .pair _ _ => iterChoicesPairsFrom 0 (e :: es)
      | .plain _ => (iterChoicesPlainFrom 0 (e :: es), true)

/-- The indices `iter_i18n_choices` yields (before any exception). -/
def i18n_choice_indices (a : Attr) : List Nat :=
  (iter_i18n_choices_run a).1

/-! ## `iter_i18n_fields`

```python
def iter_i18n_fields(component):
    for name, value in inspect.getmembers(component):
        if name == "value" and hasattr(component, "choices"):
            continue
        if isinstance(value, I18nString):
            yield name
        elif name == "choices" and any(iter_i18n_choices(value)):
            yield name
```

Note `any(iter_i18n_choices(value))` consumes the *indices* the generator
yields and tests their truthiness: index `0` is falsy, so a choices list
whose only translatable position is `0` does **not** make the `choices`
field discovered.  `any` short-circuits at the first non-zero index, so an
unpack error after such an index is not reached. -/

/-- `hasattr(component, "choices")`. -/
def hasChoicesAttr (c : Component) : Bool :=
  (alookup c.attrs "choices").isSome

/-- Lazy `any(iter_i18n_choices(value))` as a three-valued outcome:
`some b` when it returns `b`, `none` when consuming the generator raises
before a truthy index is found. -/
def anyChoicesTri (a : Attr) : Option Bool :=
  let r := iter_i18n_choices_run a
  if r.1.any (fun i => i != 0) then some true
  else if r.2 then some false
  else none

/-- Run of `iter_i18n_fields` over the member list: yielded field names plus
completion flag (`false` when `any(iter_i18n_choices(...))` raises). -/
def fieldsFrom (hasCh : Bool) : List (String × Attr) → List String × Bool
  | [] => ([], true)
  | (name, a) :: rest =>
      if name == "value" && hasCh then fieldsFrom hasCh rest
      else if a.isI18n then
        let r := fieldsFrom hasCh rest
        (name :: r.1, r.2)
      else if name == "choices" then
        match anyChoicesTri a with
        | some true =>
            let r := fieldsFrom hasCh rest
            (name :: r.1, r.2)
        | some false => fieldsFrom hasCh rest
        | none => ([], false)
      else fieldsFrom hasCh rest

/-- Full run of `iter_i18n_fields` on a component. -/
def iter_i18n_fields_run (c : Component) : List String × Bool :=
  fieldsFrom (hasChoicesAttr c) c.attrs

/-- The field names `iter_i18n_fields` yields. -/
def i18n_fields (c : Component) : List String :=
  (iter_i18n_fields_run c).1

/-! ## `iter_i18n_components`

```python
def iter_i18n_components(block):
    if isinstance(block, BlockContext):
        for component in block.children:
            for c in iter_i18n_components(component):
                yield c
    if any(iter_i18n_fields(block)):
        yield block
```

`any(iter_i18n_fields(block))` is truthy at the first yielded field name
(attribute names are non-empty strings), so it short-circuits before any
later exception; it raises only when the field generator raises before its
first yield. -/

/-- Lazy `any(iter_i18n_fields(block))`: `some b` when it returns `b`,
`none` when the generator raises before its first yield. -/
def anyFieldsTri (c : Component) : Option Bool :=
  let r := iter_i18n_fields_run c
  match r.1 with
  | _ :: _ => some true
  | [] => if r.2 then some false else none

mutual

/-- Run of `iter_i18n_components`: discovered components (children first,
then the node itself when it has a translatable field) plus completion
flag. -/
def comps_run : Block → List Component × Bool
  | .leaf c =>
      match anyFieldsTri c with
      | some true => ([c], true)
      | some false => ([], true)
      | none => ([], false)
  | .context c children =>
      let r := comps_run_list children
      if !r.2 then (r.1, false)
      else
        match anyFieldsTri c with
        | some true => (r.1 ++ [c], true)
        | some false => (r.1, true)
        | none => (r.1, false)

/-- Run of `iter_i18n_components` over a child list, left to right. -/
def comps_run_list : List Block → List Component × Bool
  | [] => ([], true)
  | b :: bs =>
      let r := comps_run b
      if !r.2 then (r.1, false)
      else
        let r2 := comps_run_list bs
        (r.1 ++ r2.1, r2.2)

end

/-- The components `iter_i18n_components` yields. -/
def i18n_components (b : Block) : List Component :=
  (comps_run b).1

/-! ## `has_new_i18n_fields` -/

/-- `value in existing_translation.get(lang, {})`: an `I18nString` hashes and
compares like its text, so membership is by text; a non-string value is
never a key of the (string-keyed) table. -/
def keyInLang (t : Table) (lang : String) (v : Val) : Bool :=
  match v with
  | .str s _ => (tableGet t lang s).isSome
  | .obj _ => false

/-- `component.choices` for a component whose `choices` field was discovered
(the attribute necessarily exists; the default is unreachable). -/
def choicesAttr (c : Component) : Attr :=
  (alookup c.attrs "choices").getD (.val (.obj 0))

/-- `component.choices[idx][0] if isinstance(component.choices[idx], tuple)
else component.choices[idx]` (indices yielded by `iter_i18n_choices` are
always in bounds and the attribute is a list there). -/
def displayAt (a : Attr) (i : Nat) : Val :=
  match a with
  | .clist es => (es.getD i (.plain (.obj 0))).display
  | .val v => v

/-- The body of the innermost loops of `has_new_i18n_fields` for one
discovered `field` of `component`: is some checked value absent from the
table for `lang`?  (For a discovered non-`choices` field the attribute is
always a marked string; the fall-through is unreachable.) -/
def gapInField (existing : Table) (lang : String) (c : Component)
    (field : String) : Bool :=
  if field == "choices" then
    (i18n_choice_indices (choicesAttr c)).any
      (fun idx => !keyInLang existing lang (displayAt (choicesAttr c) idx))
  else
    match alookup c.attrs field with
    | some (.val v) => !keyInLang existing lang v
    | _ => false

/-- `has_new_i18n_fields(block, langs, existing_translation)`: the
`return True` short-circuits are the `List.any`s. -/
def has_new_i18n_fields (block : Block) (langs : List String)
    (existing : Table) : Bool :=
  let components := i18n_components block
  langs.any fun lang =>
    components.any fun c =>
      (i18n_fields c).any fun field => gapInField existing lang c field

/-! ## `dump_blocks` -/

/-- The text of a string value (`"" + value`; discovered values are always
strings, so the default is unreachable). -/
def Val.text : Val → String
  | .str s _ => s
  | .obj _ => ""

/-- `translate(lang, key) = include_translations.get(lang, {}).get(key, key)`. -/
def translateText (incl : Table) (lang s : String) : String :=
  (tableGet incl lang s).getD s

/-- The translatable values the loops of `has_new_i18n_fields` /
`dump_blocks` visit for one discovered field: the display halves at the
positions `iter_i18n_choices` yields for `choices`, and the attribute value
itself otherwise. -/
def fieldTranslatableValues (c : Component) (field : String) : List Val :=
  if field == "choices" then
    (i18n_choice_indices (choicesAttr c)).map (displayAt (choicesAttr c))
  else
    match alookup c.attrs field with
    | some (.val v) => [v]
    | _ => []

/-- The texts of those values (the keys written by `dump_blocks`). -/
def fieldTexts (c : Component) (field : String) : List String :=
  (fieldTranslatableValues c field).map Val.text

/-- One language's dictionary as `dump_blocks` fills it
(`ret[lang][value] = translate(lang, value)` over all components/fields). -/
def dump_lang (comps : List Component) (incl : Table)
    (lang : String) : List (String × String) :=
  comps.foldl (fun d c =>
    (i18n_fields c).foldl (fun d field =>
      (fieldTexts c field).foldl
        (fun d s => ainsert d s (translateText incl lang s)) d) d) []

/-- `dump_blocks(block, langs, include_translations)`:
`ret[lang] = {}` then the nested fill, for each `lang` in order. -/
def dump_blocks (block : Block) (langs : List String) (incl : Table) : Table :=
  let comps := i18n_components block
  langs.foldl (fun ret lang => ainsert ret lang (dump_lang comps incl lang)) []

/-! ## `translate_blocks` and its handlers -/

/-- `translate(lang, key) = translation.get(lang, {}).get(key, key)` at value
level: a found entry is the plain `str` stored in the table; the fallback is
the key object itself (so an `I18nString` stays marked); a non-string key is
never found. -/
def translateVal (translation : Table) (lang : String) (v : Val) : Val :=
  match v with
  | .str s _ =>
      match tableGet translation lang s with
      | some t => .str t false
      | none => v
  | .obj _ => v

/-- The per-index body of the `choices` rebuild in `on_lang_change`: at a
yielded position a tuple becomes `(translate(lang, k), v)` and a plain value
`v` becomes `(translate(lang, v), v)`; other positions are untouched. -/
def translateEntry (translation : Table) (lang : String) (idxs : List Nat)
    (i : Nat) (e : Entry) : Entry :=
  if idxs.contains i then
    match e with
    | .pair k v => .pair (translateVal translation lang k) v
    | .plain v => .pair (translateVal translation lang v) v
  else e

/-- Positional map used to state the rebuild of a copied `choices` list. -/
def mapWithIdxFrom (f : Nat → Entry → Entry) : Nat → List Entry → List Entry
  | _, [] => []
  | n, e :: es => f n e :: mapWithIdxFrom f (n + 1) es

/-- The `choices` rebuild of `on_lang_change`: `choices.copy()` mutated at
each index `iter_i18n_choices` yields.  (The generator runs over the list
being mutated, but only already-visited positions are ever overwritten and
the branch is fixed at the first element, so this equals precomputing the
indices and mapping.) -/
def translateEntries (translation : Table) (lang : String)
    (es : List Entry) : List Entry :=
  let idxs := i18n_choice_indices (.clist es)
  mapWithIdxFrom (translateEntry translation lang idxs) 0 es

/-- Python `component == lang` inside `on_lang_change`.  `lang` there is the
handler's *string* parameter — it shadows the selector component passed to
`translate_blocks` — and a gradio `Block` defines no `__eq__`, so default
object identity applies and a block instance never equals a `str`:
the comparison is always `False`. -/
def blockEqPyStr (c : Component) (lang : String) : Bool := false

/-- One entry of the `modified` dict of `on_lang_change` for one discovered
field.  A `choices` attribute that is not a list has no `.copy()`
(`AttributeError`); a discovered non-`choices` field is always a marked
string, so its fall-through is unreachable. -/
def modifyField (translation : Table) (lang : String) (c : Component)
    (field : String) : Except String (String × Attr) :=
  if field == "choices" then
    match alookup c.attrs "choices" with
    | some (.clist es) =>
        .ok (field, .clist (translateEntries translation lang es))
    | some (.val _) => .error "AttributeError: no attribute copy"
    | none => .error "AttributeError: choices"
  else
    match alookup c.attrs field with
    | some (.val v) => .ok (field, .val (translateVal translation lang v))
    | _ => .error "AttributeError"

/-- The per-component body of `on_lang_change`: the (dead) self-reference
check, then `gr.update(**modified)` modelled as the list of
`(field, new value)` pairs in field order. -/
def on_lang_change_comp (translation : Table) (lang : String)
    (c : Component) : Except String (List (String × Attr)) :=
  let fields := i18n_fields c
  if blockEqPyStr c lang && fields.contains "value" then
    .error "this component can't has I18nStrings as value"
  else
    fields.mapM (modifyField translation lang c)

/-- `on_lang_change(lang)`: one batch update per discovered component, in
discovery order.  (The Python code unwraps a singleton list before returning;
that is gradio calling convention only and not modelled.) -/
def on_lang_change (components : List Component) (translation : Table)
    (lang : String) : Except String (List (List (String × Attr))) :=
  components.mapM (on_lang_change_comp translation lang)

/-- The body of `translate_blocks` that runs at setup time (scope exit):
the `isinstance(block, gr.Blocks)` check — `blockIsGrBlocks` carries the
Python type information — then component discovery and handler registration.
No other check runs here; in particular the self-reference check lives only
inside `on_lang_change`. -/
def translate_blocks_setup (blockIsGrBlocks : Bool) (block : Block) :
    Except String (List Component) :=
  if !blockIsGrBlocks then
    .error "block must be an instance of gradio.Blocks"
  else .ok (i18n_components block)

/-- `on_load(request)`: `request.headers["Accept-Language"]` is a mapping
lookup that raises a `KeyError` when the header is absent (`none`); on a
present header value the first comma-separated entry is taken, its `-`
suffix stripped, lower-cased, and an *empty* result falls back to "en". -/
def on_load (acceptLanguage : Option String) : Except String String :=
  match acceptLanguage with
  | none => .error "KeyError"
  | some h =>
      let lang := ((((h.splitOn ",").headD "").splitOn "-").headD "").toLower
      if lang == "" then .ok "en" else .ok lang

/-! ## `Translate` scope: translation-source resolution -/

/-- The `translation` argument of `Translate`: a dict, a string (file path),
or any other object. -/
inductive TransSource : Type where
  | dict : Table → TransSource
  | path : String → TransSource
  | other : TransSource

/-- The translation-source resolution performed at `Translate` scope exit.
`fileExists` models `os.path.exists`; `loadJson` / `loadYaml` model the
parsers applied to an existing file (their own I/O or parse failures are
external and propagate outside this model). -/
def resolve_translation (fileExists : String → Bool)
    (loadJson loadYaml : String → Table) :
    TransSource → Except String Table
  | .dict t => .ok t
  | .path p =>
      if fileExists p then
        if p.endsWith ".json" then .ok (loadJson p)
        else if p.endsWith ".yaml" then .ok (loadYaml p)
        else .error "Unsupported file format"
      else .ok []
  | .other => .error "Unsupported translation type"

/-! ## `escape_caller` (interop shim) -/

/-- An unwrapped host text utility (`inspect.cleandoc`) applied to a string
value: it processes the text and returns a plain `str`, silently dropping
the `I18nString` subclass. -/
def applyTextUtil (func : String → String) : Val → Val
  | .str s _ => .str (func s) false
  | v => v

/-- `escape_caller(func)` applied to one argument: when the argument is an
`I18nString`, the utility's output is re-wrapped as `I18nString`; otherwise
the utility's result is returned as-is. -/
def escape_caller (func : String → String) (v : Val) : Val :=
  if v.isMarked then
    match applyTextUtil func v with
    | .str s _ => .str s true
    | w => w
  else applyTextUtil func v

/-! ## Well-formedness

The Python discovery loops raise a `TypeError` on a `choices` list that
starts with a tuple but contains a non-tuple, and `on_lang_change` an
`AttributeError` on a non-list `choices` attribute.  The theorems about the
non-raising executions restrict to trees whose generator runs all complete
(attribute names are also unique, as Python object attributes are). -/

/-- The `choices` attribute, when present, is a list (so `.copy()` exists). -/
def choicesListOK (c : Component) : Bool :=
  match alookup c.attrs "choices" with
  | some (.val _) => false
  | _ => true

/-- A well-formed component: unique attribute names, every
`iter_i18n_choices` run over an attribute completes, and a present `choices`
attribute is a list. -/
def Component.WF (c : Component) : Prop :=
  (c.attrs.map Prod.fst).Nodup ∧
  (∀ p ∈ c.attrs, (iter_i18n_choices_run p.2).2 = true) ∧
  choicesListOK c = true

instance decidableComponentWF (c : Component) : Decidable c.WF :=
  inferInstanceAs (Decidable ((c.attrs.map Prod.fst).Nodup ∧
    (∀ p ∈ c.attrs, (iter_i18n_choices_run p.2).2 = true) ∧
    choicesListOK c = true))

/-- A well-formed tree: discovery completes and every discovered component
is well-formed. -/
def Block.WF (b : Block) : Prop :=
  (comps_run b).2 = true ∧ ∀ c ∈ (comps_run b).1, c.WF

instance decidableBlockWF (b : Block) : Decidable b.WF :=
  inferInstanceAs (Decidable ((comps_run b).2 = true ∧
    ∀ c ∈ (comps_run b).1, c.WF))

/-! ## Spec-side definitions (for the statements only) -/

/-- All translatable texts of a list of components, in discovery order. -/
def textsOfComps (comps : List Component) : List String :=
  comps.flatMap fun c =>
    (i18n_fields c).flatMap fun field => fieldTexts c field

/-- All discovered translatable texts of a tree, in discovery order. -/
def discoveredTexts (b : Block) : List String :=
  textsOfComps (i18n_components b)

/-- Repeated Python dict assignment `d[k] = f k` over the keys `ks`. -/
def insertAll (d : List (String × String)) (ks : List String)
    (f : String → String) : List (String × String) :=
  ks.foldl (fun d k => ainsert d k (f k)) d

/-- The new attribute value `on_lang_change` computes for one discovered
field of a well-formed component (used only to state its behavior; the
fall-through defaults are unreachable for discovered fields). -/
def newAttrOf (t : Table) (lg : String) (c : Component) (field : String) :
    Attr :=
  if field == "choices" then
    match alookup c.attrs "choices" with
    | some (.clist es) => .clist (translateEntries t lg es)
    | _ => .val (.obj 0)
  else
    match alookup c.attrs field with
    | some (.val v) => .val (translateVal t lg v)
    | _ => .val (.obj 0)

/-- The amended identity-round-trip shape of one rebuilt `choices` entry: a
pair entry is Python-equal to the original; a plain entry is unchanged or —
at a translatable position — becomes the pair whose display is Python-equal
to the original value and whose value half is the original value itself. -/
def entryIdOK : Entry → Entry → Prop
  | .pair k v, ne => Entry.pyEq (.pair k v) ne = true
  | .plain v, ne => ne = .plain v ∨ ∃ k, ne = .pair k v ∧ k.pyEq v = true

/-- The amended identity-round-trip condition for one updated field: a
non-`choices` field's new value is Python-equal to the old attribute; the
`choices` field's new value is entrywise `entryIdOK` against the old list. -/
def fieldIdOK (c : Component) (field : String) (newA : Attr) : Prop :=
  (field ≠ "choices" →
    ∃ oldA, alookup c.attrs field = some oldA ∧ oldA.pyEq newA = true) ∧
  (field = "choices" →
    ∃ olds news, alookup c.attrs "choices" = some (.clist olds) ∧
      newA = .clist news ∧ news.length = olds.length ∧
      ∀ i, i < olds.length →
        entryIdOK (olds.getD i (.plain (.obj 0)))
          (news.getD i (.plain (.obj 0))))

/-- The Language Selector of the self-reference scenario: its displayed
`value` attribute is a marker value. -/
def selectorComp : Component := ⟨1, [("value", .val (.str "en" true))]⟩

/-- A root tree containing only the selector. -/
def selfRefRoot : Block := .context ⟨0, []⟩ [.leaf selectorComp]

/-- Modelled from the spec: "take the first preference, strip any regional
suffix, lower-case it; default to `"en"` if absent" — the expected initial
language computed from a present header value. -/
def spec_initial_lang (h : String) : String :=
  let pref := (h.splitOn ",").headD ""
  let base := (pref.splitOn "-").headD ""
  let l := base.toLower
  if l.isEmpty then "en" else l

/-- The positions of a choices list whose display half is a marked value,
counting from `n` (spec side of choice-index discovery). -/
def markedDisplayPositionsFrom (n : Nat) : List Entry → List Nat
  | [] => []
  | e :: es =>
      let r := markedDisplayPositionsFrom (n + 1) es
      if e.display.isMarked then n :: r else r

/-- The positions of a choices list whose element is itself a marked plain
value (tuples excluded), counting from `n`. -/
def markedPlainPositionsFrom (n : Nat) : List Entry → List Nat
  | [] => []
  | e :: es =>
      let r := markedPlainPositionsFrom (n + 1) es
      match e with
      | .plain v => if v.isMarked then n :: r else r
      | .pair _ _ => r

/-- The positions of a choices list of pairs/plain values whose display half
is marked, as a filter of the index range (spec side of claim C7). -/
def choicePositions (es : List Entry) : List Nat :=
  (List.range es.length).filter
    (fun j => ((es.getD j (.plain (.obj 0))).display).isMarked)

/-- The positions of a choices list whose element is a marked *plain* value,
as a filter of the index range (spec side of claim C10: tuples are excluded
even when their display half is marked). -/
def plainPositions (es : List Entry) : List Nat :=
  (List.range es.length).filter
    (fun j => !(es.getD j (.plain (.obj 0))).isPair &&
      ((es.getD j (.plain (.obj 0))).display).isMarked)

/-- The positions of a choices list whose element is a *pair* with a marked
first element, counting from `n` (what the tuple branch yields: a skipped
two-character string is never yielded, even when marked). -/
def markedPairPositionsFrom (n : Nat) : List Entry → List Nat
  | [] => []
  | e :: es =>
      let r := markedPairPositionsFrom (n + 1) es
      match e with
      | .pair k _ => if k.isMarked then n :: r else r
      | .plain _ => r

/-- The positions of a choices list whose element is a pair with a marked
first element, as a filter of the index range (spec side of amended claim
C10). -/
def pairMarkedPositions (es : List Entry) : List Nat :=
  (List.range es.length).filter
    (fun j => (es.getD j (.plain (.obj 0))).isPair &&
      ((es.getD j (.plain (.obj 0))).display).isMarked)

/-! ## Helper lemmas about `iter_i18n_choices` -/

theorem markedDisplayPositionsFrom_eq (n : Nat) (es : List Entry) :
    markedDisplayPositionsFrom n es =
      ((List.range es.length).filter
        (fun j => ((es.getD j (.plain (.obj 0))).display).isMarked)).map
        (fun j => n + j) := by
  induction es generalizing n with
  | nil => rfl
  | cons e es ih =>
      simp only [markedDisplayPositionsFrom, List.length_cons,
        List.range_succ_eq_map, List.filter_cons, List.getD_cons_zero,
        List.getD_cons_succ, List.filter_map, List.map_map, ih (n + 1)]
      by_cases h : e.display.isMarked = true
      · simp only [h, if_pos rfl]
        simp [Function.comp_def, Nat.add_comm, Nat.add_assoc, Nat.add_left_comm]
      · simp only [h]
        simp [h, Function.comp_def, Nat.add_comm, Nat.add_assoc,
          Nat.add_left_comm]

theorem markedPlainPositionsFrom_eq (n : Nat) (es : List Entry) :
    markedPlainPositionsFrom n es =
      ((List.range es.length).filter
        (fun j => !(es.getD j (.plain (.obj 0))).isPair &&
          ((es.getD j (.plain (.obj 0))).display).isMarked)).map
        (fun j => n + j) := by
  induction es generalizing n with
  | nil => rfl
  | cons e es ih =>
      have hrec := ih (n + 1)
      cases e with
      | plain v =>
          simp only [markedPlainPositionsFrom, List.length_cons,
            List.range_succ_eq_map, List.filter_cons, List.getD_cons_zero,
            List.getD_cons_succ, List.filter_map, List.map_map, hrec]
          by_cases h : v.isMarked = true
          · simp [h, Entry.isPair, Entry.display, Function.comp_def,
              Nat.add_comm, Nat.add_assoc, Nat.add_left_comm]
          · simp [h, Entry.isPair, Entry.display, Function.comp_def,
              Nat.add_comm, Nat.add_assoc, Nat.add_left_comm]
      | pair k v =>
          simp only [markedPlainPositionsFrom, List.length_cons,
            List.range_succ_eq_map, List.filter_cons, List.getD_cons_zero,
            List.getD_cons_succ, List.filter_map, List.map_map, hrec]
          simp [Entry.isPair, Function.comp_def, Nat.add_comm, Nat.add_assoc,
            Nat.add_left_comm]

theorem iterChoicesPairsFrom_all_pairs (n : Nat) (es : List Entry)
    (hp : ∀ e ∈ es, e.isPair = true) :
    iterChoicesPairsFrom n es = (markedDisplayPositionsFrom n es, true) := by
  induction es generalizing n with
  | nil => rfl
  | cons e es ih =>
      cases e with
      | pair k v =>
          have hrest := ih (n + 1) (fun e he => hp e (List.mem_cons_of_mem _ he))
          simp [iterChoicesPairsFrom, markedDisplayPositionsFrom, hrest,
            Entry.display]
      | plain v =>
          have := hp _ (List.mem_cons_self _ _)
          simp [Entry.isPair] at this

theorem markedPairPositionsFrom_eq (n : Nat) (es : List Entry) :
    markedPairPositionsFrom n es =
      ((List.range es.length).filter
        (fun j => (es.getD j (.plain (.obj 0))).isPair &&
          ((es.getD j (.plain (.obj 0))).display).isMarked)).map
        (fun j => n + j) := by
  induction es generalizing n with
  | nil => rfl
  | cons e es ih =>
      have hrec := ih (n + 1)
      cases e with
      | plain v =>
          simp only [markedPairPositionsFrom, List.length_cons,
            List.range_succ_eq_map, List.filter_cons, List.getD_cons_zero,
            List.getD_cons_succ, List.filter_map, List.map_map, hrec]
          simp [Entry.isPair, Function.comp_def, Nat.add_comm, Nat.add_assoc,
            Nat.add_left_comm]
      | pair k v =>
          simp only [markedPairPositionsFrom, List.length_cons,
            List.range_succ_eq_map, List.filter_cons, List.getD_cons_zero,
            List.getD_cons_succ, List.filter_map, List.map_map, hrec]
          by_cases h : k.isMarked = true
          · simp [h, Entry.isPair, Entry.display, Function.comp_def,
              Nat.add_comm, Nat.add_assoc, Nat.add_left_comm]
          · simp [h, Entry.isPair, Entry.display, Function.comp_def,
              Nat.add_comm, Nat.add_assoc, Nat.add_left_comm]

theorem iterChoicesPairsFrom_bad (n : Nat) (es : List Entry)
    (hbad : ∃ e ∈ es, e.isPair = false ∧ e.unpackable = false) :
    (iterChoicesPairsFrom n es).2 = false := by
  induction es generalizing n with
  | nil => simp at hbad
  | cons e es ih =>
      rcases hbad with ⟨e', he', hp, hu⟩
      rcases List.mem_cons.mp he' with h | h
      · subst h
        cases e' with
        | pair a b => simp [Entry.isPair] at hp
        | plain v =>
            cases v with
            | str s m =>
                have hs : (s.length == 2) = false := by
                  simpa [Entry.unpackable] using hu
                simp [iterChoicesPairsFrom, hs]
            | obj nn => rfl
      · cases e with
        | pair a b =>
            simp only [iterChoicesPairsFrom]
            exact ih (n + 1) ⟨e', h, hp, hu⟩
        | plain v =>
            cases v with
            | str s m =>
                by_cases hs : (s.length == 2) = true
                · simp only [iterChoicesPairsFrom, hs, if_true]
                  exact ih (n + 1) ⟨e', h, hp, hu⟩
                · simp [iterChoicesPairsFrom, hs]
            | obj nn => rfl

theorem iterChoicesPairsFrom_all_unpackable (n : Nat) (es : List Entry)
    (hp : ∀ e ∈ es, e.unpackable = true) :
    iterChoicesPairsFrom n es = (markedPairPositionsFrom n es, true) := by
  induction es generalizing n with
  | nil => rfl
  | cons e es ih =>
      have hrest := ih (n + 1) (fun e he => hp e (List.mem_cons_of_mem _ he))
      cases e with
      | pair k v =>
          simp [iterChoicesPairsFrom, markedPairPositionsFrom, hrest]
      | plain v =>
          cases v with
          | str s m =>
              have hs : (s.length == 2) = true := by
                simpa [Entry.unpackable] using hp _ (List.mem_cons_self _ _)
              simp [iterChoicesPairsFrom, markedPairPositionsFrom, hs, hrest]
          | obj nn =>
              have := hp _ (List.mem_cons_self _ _)
              simp [Entry.unpackable] at this

theorem iterChoicesPlainFrom_eq (n : Nat) (es : List Entry) :
    iterChoicesPlainFrom n es = markedPlainPositionsFrom n es := by
  induction es generalizing n with
  | nil => rfl
  | cons e es ih =>
      cases e <;>
        simp [iterChoicesPlainFrom, markedPlainPositionsFrom, ih (n + 1)]

theorem plainPositions_eq_choicePositions (es : List Entry)
    (hp : ∀ e ∈ es, e.isPair = false) :
    plainPositions es = choicePositions es := by
  unfold plainPositions choicePositions
  apply List.filter_congr
  intro j hj
  rw [List.mem_range] at hj
  have hm : es.getD j (.plain (.obj 0)) ∈ es := by
    rw [List.getD_eq_getElem es _ hj]
    exact List.getElem_mem hj
  rw [hp _ hm]
  simp

theorem mem_iterChoicesPairsFrom (i n : Nat) (es : List Entry)
    (hi : i ∈ (iterChoicesPairsFrom n es).1) :
    ∃ j, i = n + j ∧ j < es.length ∧
      ((es.getD j (.plain (.obj 0))).display).isMarked = true := by
  induction es generalizing n with
  | nil => simp [iterChoicesPairsFrom] at hi
  | cons e es ih =>
      cases e with
      | plain v =>
          cases v with
          | str s m =>
              by_cases hs : (s.length == 2) = true
              · rw [show iterChoicesPairsFrom n (.plain (.str s m) :: es) =
                    iterChoicesPairsFrom (n + 1) es by
                  simp [iterChoicesPairsFrom, hs]] at hi
                rcases ih (n + 1) hi with ⟨j, hij, hj, hd⟩
                exact ⟨j + 1, by omega, by simpa using hj, by simpa using hd⟩
              · simp [iterChoicesPairsFrom, hs] at hi
          | obj nn => simp [iterChoicesPairsFrom] at hi
      | pair k v =>
          simp only [iterChoicesPairsFrom] at hi
          by_cases hk : k.isMarked = true
          · rw [if_pos hk] at hi
            rcases List.mem_cons.mp hi with h | h
            · exact ⟨0, h, Nat.succ_pos _, by simpa [Entry.display] using hk⟩
            · rcases ih (n + 1) h with ⟨j, hij, hj, hd⟩
              exact ⟨j + 1, by omega, by simpa using hj, by simpa using hd⟩
          · rw [if_neg hk] at hi
            rcases ih (n + 1) hi with ⟨j, hij, hj, hd⟩
            exact ⟨j + 1, by omega, by simpa using hj, by simpa using hd⟩

theorem mem_iterChoicesPlainFrom (i n : Nat) (es : List Entry)
    (hi : i ∈ iterChoicesPlainFrom n es) :
    ∃ j, i = n + j ∧ j < es.length ∧
      ((es.getD j (.plain (.obj 0))).display).isMarked = true := by
  induction es generalizing n with
  | nil => simp [iterChoicesPlainFrom] at hi
  | cons e es ih =>
      cases e with
      | pair k v =>
          simp only [iterChoicesPlainFrom] at hi
          rcases ih (n + 1) hi with ⟨j, hij, hj, hd⟩
          exact ⟨j + 1, by omega, by simpa using hj, by simpa using hd⟩
      | plain v =>
          simp only [iterChoicesPlainFrom] at hi
          by_cases hv : v.isMarked = true
          · rw [if_pos hv] at hi
            rcases List.mem_cons.mp hi with h | h
            · exact ⟨0, h, Nat.succ_pos _, by simpa [Entry.display] using hv⟩
            · rcases ih (n + 1) h with ⟨j, hij, hj, hd⟩
              exact ⟨j + 1, by omega, by simpa using hj, by simpa using hd⟩
          · rw [if_neg hv] at hi
            rcases ih (n + 1) hi with ⟨j, hij, hj, hd⟩
            exact ⟨j + 1, by omega, by simpa using hj, by simpa using hd⟩

/-- Soundness of yielded indices: every index `iter_i18n_choices` yields is
in bounds and points at a marked display half. -/
theorem choice_index_sound (es : List Entry) (i : Nat)
    (hi : i ∈ i18n_choice_indices (.clist es)) :
    i < es.length ∧
      ((es.getD i (.plain (.obj 0))).display).isMarked = true := by
  unfold i18n_choice_indices at hi
  cases es with
  | nil => simp [iter_i18n_choices_run] at hi
  | cons e es =>
      cases e with
      | pair k v =>
          have h := mem_iterChoicesPairsFrom i 0 (.pair k v :: es)
            (by simpa [iter_i18n_choices_run] using hi)
          rcases h with ⟨j, hij, hj, hd⟩
          exact ⟨by omega, by simpa [hij] using hd⟩
      | plain w =>
          have h := mem_iterChoicesPlainFrom i 0 (.plain w :: es)
            (by simpa [iter_i18n_choices_run] using hi)
          rcases h with ⟨j, hij, hj, hd⟩
          exact ⟨by omega, by simpa [hij] using hd⟩

/-! ## Helper lemmas about the `choices` rebuild -/

theorem mapWithIdxFrom_length (f : Nat → Entry → Entry) (n : Nat)
    (es : List Entry) : (mapWithIdxFrom f n es).length = es.length := by
  induction es generalizing n with
  | nil => rfl
  | cons e es ih => simp [mapWithIdxFrom, ih (n + 1)]

theorem mapWithIdxFrom_getD (f : Nat → Entry → Entry) (n i : Nat)
    (es : List Entry) (h : i < es.length) (d : Entry) :
    (mapWithIdxFrom f n es).getD i d = f (n + i) (es.getD i d) := by
  induction es generalizing n i with
  | nil => simp at h
  | cons e es ih =>
      cases i with
      | zero => simp [mapWithIdxFrom]
      | succ i =>
          have hi : i < es.length := by simpa using h
          simp only [mapWithIdxFrom, List.getD_cons_succ, ih (n + 1) i hi]
          congr 1
          omega

theorem translateEntries_length (t : Table) (lg : String) (es : List Entry) :
    (translateEntries t lg es).length = es.length :=
  mapWithIdxFrom_length _ 0 es

theorem translateEntries_getD (t : Table) (lg : String) (es : List Entry)
    (i : Nat) (h : i < es.length) (d : Entry) :
    (translateEntries t lg es).getD i d =
      translateEntry t lg (i18n_choice_indices (.clist es)) i (es.getD i d) := by
  unfold translateEntries
  rw [mapWithIdxFrom_getD _ 0 i es h d]
  simp

/-! ## Reflexivity of Python equality -/

@[simp] theorem valPyEq_refl (v : Val) : v.pyEq v = true := by
  cases v <;> simp [Val.pyEq]

@[simp] theorem entryPyEq_refl (e : Entry) : e.pyEq e = true := by
  cases e <;> simp [Entry.pyEq]

@[simp] theorem attrPyEq_refl (a : Attr) : a.pyEq a = true := by
  cases a with
  | val v => simp [Attr.pyEq]
  | clist es =>
      simp only [Attr.pyEq, beq_self_eq_true, Bool.true_and]
      induction es with
      | nil => rfl
      | cons e es ih => simpa [List.zip_cons_cons] using ih

/-! ## Claim theorems -/

/-- Claim C5: after the language-change rebuild of a `choices` sequence on
which the iteration completes (otherwise the Python rebuild raises instead
of producing a list), the value half of every entry is unchanged (in
particular every pair keeps its value half, as a pair), every entry at a
non-translatable position is unchanged, and at translatable positions the
display half is replaced by its table lookup while the value half is
preserved. -/
theorem choices_value_preserved (translation : Table) (lang : String)
    (es : List Entry) (i : Nat) (h : i < es.length)
    (hrun : (iter_i18n_choices_run (.clist es)).2 = true) :
    (translateEntries translation lang es).length = es.length ∧
    ((translateEntries translation lang es).getD i (.plain (.obj 0))).value =
      (es.getD i (.plain (.obj 0))).value ∧
    (∀ k v, es.getD i (.plain (.obj 0)) = .pair k v →
      ∃ kk, (translateEntries translation lang es).getD i (.plain (.obj 0)) =
        .pair kk v) ∧
    (i ∉ i18n_choice_indices (.clist es) →
      (translateEntries translation lang es).getD i (.plain (.obj 0)) =
        es.getD i (.plain (.obj 0))) ∧
    (i ∈ i18n_choice_indices (.clist es) →
      ((translateEntries translation lang es).getD i
          (.plain (.obj 0))).display =
        translateVal translation lang
          ((es.getD i (.plain (.obj 0))).display)) := by
  refine ⟨translateEntries_length translation lang es, ?_, ?_, ?_, ?_⟩ <;>
    rw [translateEntries_getD translation lang es i h]
  · unfold translateEntry
    by_cases hc : (i18n_choice_indices (.clist es)).contains i
    · rw [if_pos hc]
      cases es.getD i (.plain (.obj 0)) <;> simp [Entry.value]
    · rw [if_neg hc]
  · intro k v hkv
    unfold translateEntry
    rw [hkv]
    by_cases hc : (i18n_choice_indices (.clist es)).contains i
    · rw [if_pos hc]; exact ⟨_, rfl⟩
    · rw [if_neg hc]; exact ⟨k, rfl⟩
  · intro hni
    unfold translateEntry
    rw [if_neg (by simpa [List.elem_iff] using hni)]
  · intro hmem
    unfold translateEntry
    rw [if_pos (by simpa [List.elem_iff] using hmem)]
    cases es.getD i (.plain (.obj 0)) <;> simp [Entry.display]

theorem choices_value_preserved_check :
    (0 : Nat) < ([Entry.pair (Val.str "a" true) (Val.obj 5)] : List Entry).length ∧
    ((translateEntries [("en", [("a", "b")])] "en"
        [Entry.pair (Val.str "a" true) (Val.obj 5)]).getD 0
        (.plain (.obj 0))).value =
      (([Entry.pair (Val.str "a" true) (Val.obj 5)] : List Entry).getD 0
        (.plain (.obj 0))).value :=
  ⟨by decide,
    (choices_value_preserved [("en", [("a", "b")])] "en"
      [Entry.pair (Val.str "a" true) (Val.obj 5)] 0 (by decide)
      (by decide)).2.1⟩

/-- Claim C7: choice-index discovery yields, for a list of pair entries,
exactly the positions whose first element is a Marker Value; for a list of
plain entries, exactly the positions whose value is a Marker Value; and
yields nothing (completing without error) on a non-list or an empty list. -/
theorem iter_i18n_choices_positions (es : List Entry) (v : Val) :
    ((∀ e ∈ es, e.isPair = true) →
      iter_i18n_choices_run (.clist es) = (choicePositions es, true)) ∧
    ((∀ e ∈ es, e.isPair = false) →
      iter_i18n_choices_run (.clist es) = (choicePositions es, true)) ∧
    iter_i18n_choices_run (.val v) = ([], true) ∧
    iter_i18n_choices_run (.clist []) = ([], true) := by
  refine ⟨?_, ?_, rfl, rfl⟩
  · intro hp
    cases es with
    | nil => rfl
    | cons e es =>
        cases e with
        | plain w =>
            have := hp _ (List.mem_cons_self _ _)
            simp [Entry.isPair] at this
        | pair k v' =>
            have h := iterChoicesPairsFrom_all_pairs 0 (.pair k v' :: es) hp
            rw [markedDisplayPositionsFrom_eq] at h
            simpa [iter_i18n_choices_run, choicePositions] using h
  · intro hp
    cases es with
    | nil => rfl
    | cons e es =>
        cases e with
        | pair k v' =>
            have := hp _ (List.mem_cons_self _ _)
            simp [Entry.isPair] at this
        | plain w =>
            simp only [iter_i18n_choices_run]
            rw [iterChoicesPlainFrom_eq, markedPlainPositionsFrom_eq,
              ← plainPositions_eq_choicePositions (.plain w :: es) hp]
            unfold plainPositions
            simp

theorem iter_i18n_choices_positions_check :
    iter_i18n_choices_run
        (.clist [Entry.pair (Val.str "a" true) (Val.obj 1),
                 Entry.pair (Val.str "b" false) (Val.obj 2)]) =
      (choicePositions [Entry.pair (Val.str "a" true) (Val.obj 1),
                        Entry.pair (Val.str "b" false) (Val.obj 2)], true) :=
  (iter_i18n_choices_positions
    [Entry.pair (Val.str "a" true) (Val.obj 1),
     Entry.pair (Val.str "b" false) (Val.obj 2)] (.obj 0)).1 (by decide)

/-- Claim C10 (counterexample): in the tuple branch a later non-pair entry
does *not* necessarily make the iteration fail — a plain two-character
string entry ("fr") unpacks into its characters, is skipped, and the
iteration continues, still yielding the later marked pair position: the run
on [(mark "a", ·), "fr", (mark "b", ·)] completes with yields [0, 2]. -/
theorem iter_choices_unpack_cex :
    (Entry.plain (Val.str "fr" false)).isPair = false ∧
    iter_i18n_choices_run
        (.clist [.pair (.str "a" true) (.obj 1), .plain (.str "fr" false),
          .pair (.str "b" true) (.obj 2)]) = ([0, 2], true) := by
  exact ⟨rfl, by decide⟩

/-- Claim C10 (amended): `iter_i18n_choices` classifies the whole list by
its first entry alone.  If the first entry is a pair, every entry is
unpacked as a two-element sequence: the run fails whenever some later entry
is neither a pair nor a two-character string, and when every entry unpacks
(pair, or two-character string — the latter skipped) it completes, yielding
exactly the positions of pairs with a marked first element; if the first
entry is plain, every entry — pairs included — is merely type-tested as a
plain value, so the run completes and yields exactly the positions of
marked *plain* entries. -/
theorem iter_i18n_choices_first_entry_rule (k v w : Val) (rest : List Entry) :
    ((∃ e ∈ rest, e.isPair = false ∧ e.unpackable = false) →
      (iter_i18n_choices_run (.clist (.pair k v :: rest))).2 = false) ∧
    ((∀ e ∈ rest, e.unpackable = true) →
      iter_i18n_choices_run (.clist (.pair k v :: rest)) =
        (pairMarkedPositions (.pair k v :: rest), true)) ∧
    iter_i18n_choices_run (.clist (.plain w :: rest)) =
      (plainPositions (.plain w :: rest), true) := by
  refine ⟨?_, ?_, ?_⟩
  · intro hbad
    rcases hbad with ⟨e, he, hp, hu⟩
    simp only [iter_i18n_choices_run]
    exact iterChoicesPairsFrom_bad 0 _ ⟨e, List.mem_cons_of_mem _ he, hp, hu⟩
  · intro hall
    have hall2 : ∀ e ∈ (Entry.pair k v :: rest), e.unpackable = true := by
      intro e he
      rcases List.mem_cons.mp he with h | h
      · subst h; rfl
      · exact hall e h
    simp only [iter_i18n_choices_run]
    rw [iterChoicesPairsFrom_all_unpackable 0 _ hall2,
      markedPairPositionsFrom_eq]
    unfold pairMarkedPositions
    simp
  · simp only [iter_i18n_choices_run]
    rw [iterChoicesPlainFrom_eq, markedPlainPositionsFrom_eq]
    simp [plainPositions]

theorem iter_i18n_choices_first_entry_rule_check :
    (iter_i18n_choices_run
        (.clist [Entry.pair (Val.str "a" true) (Val.obj 1),
                 Entry.plain (Val.str "b" true)])).2 = false :=
  (iter_i18n_choices_first_entry_rule (Val.str "a" true) (Val.obj 1)
      (Val.obj 0) [Entry.plain (Val.str "b" true)]).1
    ⟨Entry.plain (Val.str "b" true), by decide, by decide, by decide⟩

/-- Claim C8: the interop shim's wrapped utility returns, on a Marker Value
input, a Marker Value whose text is exactly what the unwrapped utility
produces; on a non-Marker input it returns exactly the unwrapped utility's
result. -/
theorem escape_caller_preserves_marker (func : String → String) (v : Val) :
    escape_caller func v =
      if v.isMarked then Val.str ((applyTextUtil func v).text) true
      else applyTextUtil func v := by
  cases v with
  | str s m => cases m <;> rfl
  | obj n => rfl

/-- Claim C6 (counterexample): with the language-preference header absent,
`on_load` raises a `KeyError` from the header-mapping lookup — it does not
return "en". -/
theorem on_load_absent_header_cex :
    on_load none = Except.error "KeyError" ∧
    on_load none ≠ Except.ok "en" := by
  refine ⟨rfl, ?_⟩
  simp [on_load]

/-- Claim C6 (amended): for every *present* header value, `on_load` computes
the first comma-separated preference with its regional ("-") suffix stripped
and lower-cased, returning "en" when that result is empty; an absent header
raises a lookup error instead of returning "en". -/
theorem on_load_amended (h : String) :
    on_load (some h) = Except.ok (spec_initial_lang h) ∧
    on_load none = Except.error "KeyError" := by
  refine ⟨?_, rfl⟩
  simp only [on_load, spec_initial_lang, String.isEmpty_iff, beq_iff_eq]
  split
  next hc => rfl
  next hc => rfl

/-- Claim C9: a string translation source naming a nonexistent file resolves
to the empty table with no error raised; a translation source that is
neither a mapping nor a string raises a configuration error surfaced to the
caller. -/
theorem translate_source_resolution (fileExists : String → Bool)
    (loadJson loadYaml : String → Table) (p : String)
    (habs : fileExists p = false) :
    resolve_translation fileExists loadJson loadYaml (.path p) = .ok [] ∧
    resolve_translation fileExists loadJson loadYaml .other =
      .error "Unsupported translation type" := by
  refine ⟨?_, rfl⟩
  simp [resolve_translation, habs]

theorem translate_source_resolution_check :
    resolve_translation (fun _ => false) (fun _ => []) (fun _ => [])
      (.path "translation.yaml") = .ok [] :=
  (translate_source_resolution (fun _ => false) (fun _ => []) (fun _ => [])
    "translation.yaml" rfl).1

/-- Claim C1 (the code evaluated at the failing input): the Language Selector
is discovered with a translatable `value` field, yet the scoped-translation
setup completes without any validation error, and even the language-change
handler completes without raising the self-reference `ValueError` — its
guard compares the component against the handler's *string* argument (the
shadowed `lang`), so it can never fire. -/
theorem selector_self_reference_not_rejected :
    translate_blocks_setup true selfRefRoot = .ok [selectorComp] ∧
    "value" ∈ i18n_fields selectorComp ∧
    (Val.str "en" true).isMarked = true ∧
    on_lang_change [selectorComp] [] "fr" =
      .ok [[("value", .val (.str "en" true))]] := by
  refine ⟨rfl, ?_, rfl, rfl⟩
  decide

theorem gapInField_eq_true (t : Table) (lang : String) (c : Component)
    (field : String) :
    gapInField t lang c field = true ↔
      ∃ v ∈ fieldTranslatableValues c field, keyInLang t lang v = false := by
  unfold gapInField fieldTranslatableValues
  by_cases hf : (field == "choices") = true
  · simp only [hf, if_pos, List.any_eq_true, List.mem_map, Bool.not_eq_true']
    constructor
    · rintro ⟨idx, hidx, hk⟩
      exact ⟨displayAt (choicesAttr c) idx, ⟨idx, hidx, rfl⟩, hk⟩
    · rintro ⟨v, ⟨idx, hidx, hv⟩, hk⟩
      exact ⟨idx, hidx, hv ▸ hk⟩
  · simp only [hf, Bool.false_eq_true, if_false]
    rcases ha : alookup c.attrs field with _ | a
    · simp
    · cases a with
      | val v => simp [Bool.not_eq_true']
      | clist es => simp

/-- Claim C3: `has_new_i18n_fields` returns true iff some discovered
component has a discovered translatable field with a translatable value
(display halves for `choices`) absent as a key from the table's mapping for
some target language.  All definitions involved are pure functions of their
arguments: the tree and the table are not modified. -/
theorem has_new_i18n_fields_iff_gap (b : Block) (langs : List String)
    (t : Table) (hwf : b.WF) :
    has_new_i18n_fields b langs t = true ↔
      ∃ c ∈ i18n_components b, ∃ field ∈ i18n_fields c, ∃ lang ∈ langs,
        ∃ v ∈ fieldTranslatableValues c field, keyInLang t lang v = false := by
  simp only [has_new_i18n_fields, List.any_eq_true, gapInField_eq_true]
  constructor
  · rintro ⟨lang, hlang, c, hc, field, hfield, v, hv, hk⟩
    exact ⟨c, hc, field, hfield, lang, hlang, v, hv, hk⟩
  · rintro ⟨c, hc, field, hfield, lang, hlang, v, hv, hk⟩
    exact ⟨lang, hlang, c, hc, field, hfield, v, hv, hk⟩

theorem has_new_i18n_fields_iff_gap_check :
    has_new_i18n_fields (.leaf ⟨0, [("label", .val (.str "Hello" true))]⟩)
      ["en"] [("en", [])] = true :=
  (has_new_i18n_fields_iff_gap
      (.leaf ⟨0, [("label", .val (.str "Hello" true))]⟩) ["en"] [("en", [])]
      (by decide)).mpr
    ⟨⟨0, [("label", .val (.str "Hello" true))]⟩, by decide, "label", by decide,
      "en", by decide, .str "Hello" true, by decide, by decide⟩

theorem alookup_ainsert {α : Type} (d : List (String × α)) (k : String)
    (v : α) (k' : String) :
    alookup (ainsert d k v) k' = if k = k' then some v else alookup d k' := by
  induction d with
  | nil =>
      by_cases h : k = k' <;> simp [ainsert, alookup, h]
  | cons p rest ih =>
      obtain ⟨k0, v0⟩ := p
      by_cases h0 : k0 = k
      · subst h0
        by_cases h1 : k0 = k' <;> simp [ainsert, alookup, h1]
      · by_cases h1 : k0 = k'
        · subst h1
          have hne : ¬k = k0 := fun h => h0 h.symm
          simp [ainsert, alookup, h0, hne]
        · simp [ainsert, alookup, h0, h1, ih]

theorem insertAll_foldl (d : List (String × String)) (ks : List String)
    (f : String → String) :
    ks.foldl (fun d k => ainsert d k (f k)) d = insertAll d ks f := rfl

theorem insertAll_append (d : List (String × String)) (xs ys : List String)
    (f : String → String) :
    insertAll d (xs ++ ys) f = insertAll (insertAll d xs f) ys f := by
  simp [insertAll, List.foldl_append]

theorem foldl_insertAll_flatMap {α : Type} (l : List α) (g : α → List String)
    (f : String → String) (d : List (String × String)) :
    l.foldl (fun d x => insertAll d (g x) f) d =
      insertAll d (l.flatMap g) f := by
  induction l generalizing d with
  | nil => simp [insertAll]
  | cons x l ih =>
      simp only [List.foldl_cons, List.flatMap_cons, insertAll_append, ih]

theorem insertAll_cons (d : List (String × String)) (k0 : String)
    (ks : List String) (f : String → String) :
    insertAll d (k0 :: ks) f = insertAll (ainsert d k0 (f k0)) ks f := rfl

theorem alookup_insertAll (d : List (String × String)) (ks : List String)
    (f : String → String) (k : String) :
    alookup (insertAll d ks f) k =
      if k ∈ ks then some (f k) else alookup d k := by
  induction ks generalizing d with
  | nil => simp [insertAll]
  | cons k0 ks ih =>
      rw [insertAll_cons, ih]
      by_cases h0 : k ∈ ks
      · simp [h0]
      · rw [alookup_ainsert]
        by_cases h1 : k0 = k
        · subst h1; simp [h0]
        · have hne : ¬k = k0 := fun h => h1 h.symm
          simp [h0, h1, hne, List.mem_cons]

theorem dump_lang_eq (comps : List Component) (incl : Table) (lang : String) :
    dump_lang comps incl lang =
      insertAll [] (textsOfComps comps) (translateText incl lang) := by
  unfold dump_lang textsOfComps
  simp only [insertAll_foldl, foldl_insertAll_flatMap]

theorem alookup_foldl_ainsert {α : Type} (h : String → α)
    (langs : List String) (t0 : List (String × α)) (l' : String) :
    alookup (langs.foldl (fun t lang => ainsert t lang (h lang)) t0) l' =
      if l' ∈ langs then some (h l') else alookup t0 l' := by
  induction langs generalizing t0 with
  | nil => simp
  | cons l0 ls ih =>
      simp only [List.foldl_cons, ih]
      by_cases h0 : l' ∈ ls
      · simp [h0]
      · rw [alookup_ainsert]
        by_cases h1 : l0 = l'
        · subst h1; simp [h0]
        · have hne : ¬l' = l0 := fun h => h1 h.symm
          simp [h0, h1, hne, List.mem_cons]

/-- Claim C4: `dump_blocks` returns a table whose top-level keys are exactly
the given languages, and whose per-language mapping sends every discovered
translatable value (display halves for `choices` pairs) to its existing
translation when present and to itself otherwise, with no other keys. -/
theorem dump_blocks_spec (b : Block) (langs : List String) (incl : Table)
    (hwf : b.WF) :
    (∀ l, (alookup (dump_blocks b langs incl) l).isSome = true ↔ l ∈ langs) ∧
    (∀ l ∈ langs, ∀ s : String,
      tableGet (dump_blocks b langs incl) l s =
        if s ∈ discoveredTexts b then some (translateText incl l s)
        else none) := by
  constructor
  · intro l
    simp only [dump_blocks]
    rw [alookup_foldl_ainsert]
    by_cases h : l ∈ langs <;> simp [h, alookup]
  · intro l hl s
    simp only [dump_blocks, tableGet]
    rw [alookup_foldl_ainsert, if_pos hl]
    simp only [dump_lang_eq, alookup_insertAll]
    simp [discoveredTexts, alookup]

theorem dump_blocks_spec_check :
    tableGet (dump_blocks (.leaf ⟨0, [("label", .val (.str "Hello" true))]⟩)
        ["es", "fr"] [("es", [("Hello", "Hola")])]) "fr" "Hello" =
      some "Hello" := by
  have h := (dump_blocks_spec
      (.leaf ⟨0, [("label", .val (.str "Hello" true))]⟩)
      ["es", "fr"] [("es", [("Hello", "Hola")])] (by decide)).2
      "fr" (by decide) "Hello"
  rw [h]
  decide

theorem alookup_mem_keys {α : Type} (d : List (String × α)) (k : String)
    (a : α) (h : alookup d k = some a) : k ∈ d.map Prod.fst := by
  induction d with
  | nil => simp [alookup] at h
  | cons p rest ih =>
      obtain ⟨k0, v0⟩ := p
      by_cases h0 : (k0 == k) = true
      · have : k0 = k := by simpa using h0
        simp [this]
      · rw [show alookup ((k0, v0) :: rest) k = alookup rest k by
          simp [alookup, h0]] at h
        exact List.mem_cons_of_mem _ (ih h)

theorem alookup_cons_of_mem_rest {α : Type} (name : String) (a : α)
    (rest : List (String × α)) (field : String) (b : α)
    (hnin : name ∉ rest.map Prod.fst) (hb : alookup rest field = some b) :
    alookup ((name, a) :: rest) field = some b := by
  have hmem := alookup_mem_keys rest field b hb
  have hne : (name == field) = false := by
    apply beq_eq_false_iff_ne.mpr
    intro h
    subst h
    exact hnin hmem
  simp [alookup, hne, hb]

theorem fieldsFrom_mem (hasCh : Bool) (attrs : List (String × Attr))
    (field : String) (hnd : (attrs.map Prod.fst).Nodup)
    (hf : field ∈ (fieldsFrom hasCh attrs).1) :
    ∃ a, alookup attrs field = some a ∧
      (a.isI18n = true ∨ field = "choices") := by
  induction attrs with
  | nil => simp [fieldsFrom] at hf
  | cons p rest ih =>
      obtain ⟨name, a⟩ := p
      rw [List.map_cons, List.nodup_cons] at hnd
      obtain ⟨hnin, hndr⟩ := hnd
      simp only [fieldsFrom] at hf
      split at hf
      · -- skipped "value" member: the field comes from the rest
        rcases ih hndr hf with ⟨b, hb, hcase⟩
        exact ⟨b, alookup_cons_of_mem_rest name a rest field b hnin hb, hcase⟩
      · split at hf
        next hi =>
          -- the member is an I18nString and is yielded
          rcases List.mem_cons.mp hf with h | h
          · subst h
            exact ⟨a, by simp [alookup], Or.inl hi⟩
          · rcases ih hndr h with ⟨b, hb, hcase⟩
            exact ⟨b, alookup_cons_of_mem_rest name a rest field b hnin hb,
              hcase⟩
        next hi =>
          split at hf
          next hch =>
            -- name == "choices", match on any(iter_i18n_choices(...))
            split at hf
            next hat =>
              rcases List.mem_cons.mp hf with h | h
              · subst h
                exact ⟨a, by simp [alookup], Or.inr (by simpa using hch)⟩
              · rcases ih hndr h with ⟨b, hb, hcase⟩
                exact ⟨b, alookup_cons_of_mem_rest name a rest field b hnin hb,
                  hcase⟩
            next hat =>
              rcases ih hndr hf with ⟨b, hb, hcase⟩
              exact ⟨b, alookup_cons_of_mem_rest name a rest field b hnin hb,
                hcase⟩
            next hat =>
              simp at hf
          next hch =>
            rcases ih hndr hf with ⟨b, hb, hcase⟩
            exact ⟨b, alookup_cons_of_mem_rest name a rest field b hnin hb,
              hcase⟩

/-- The shape of a discovered field of a well-formed component: the
`choices` field resolves to a list attribute, any other discovered field to
a marked string attribute. -/
theorem i18n_field_shape (c : Component) (field : String) (hwfc : c.WF)
    (hf : field ∈ i18n_fields c) :
    (field = "choices" ∧
      ∃ es, alookup c.attrs "choices" = some (.clist es)) ∨
    (field ≠ "choices" ∧
      ∃ s, alookup c.attrs field = some (.val (.str s true))) := by
  obtain ⟨hnd, hruns, hch⟩ := hwfc
  rcases fieldsFrom_mem (hasChoicesAttr c) c.attrs field hnd hf with
    ⟨a, ha, hcase⟩
  by_cases hfc : field = "choices"
  · subst hfc
    left
    refine ⟨rfl, ?_⟩
    unfold choicesListOK at hch
    rcases a with v | es
    · rw [ha] at hch
      cases hch
    · exact ⟨es, ha⟩
  · right
    refine ⟨hfc, ?_⟩
    rcases hcase with hi | hc2
    · rcases a with v | es
      · rcases v with ⟨s, m⟩ | n
        · cases m
          · simp [Attr.isI18n, Val.isMarked] at hi
          · exact ⟨s, ha⟩
        · simp [Attr.isI18n, Val.isMarked] at hi
      · simp [Attr.isI18n] at hi
    · exact absurd hc2 hfc

theorem modifyField_ok (t : Table) (lg : String) (c : Component)
    (field : String) (hwfc : c.WF) (hf : field ∈ i18n_fields c) :
    modifyField t lg c field = .ok (field, newAttrOf t lg c field) := by
  rcases i18n_field_shape c field hwfc hf with ⟨hfc, es, ha⟩ | ⟨hfc, s, ha⟩
  · subst hfc
    unfold modifyField newAttrOf
    simp [ha]
  · have hb : (field == "choices") = false := beq_eq_false_iff_ne.mpr hfc
    unfold modifyField newAttrOf
    simp [hb, ha]

theorem mapM_ok_of_forall {α β : Type} (f : α → Except String β)
    (g : α → β) (l : List α) (h : ∀ x ∈ l, f x = .ok (g x)) :
    l.mapM f = .ok (l.map g) := by
  induction l with
  | nil => rfl
  | cons x l ih =>
      rw [List.mapM_cons, h x (List.mem_cons_self _ _),
        ih (fun y hy => h y (List.mem_cons_of_mem _ hy))]
      rfl

theorem mem_textsOfComps (comps : List Component) (c : Component)
    (field : String) (s : String) (hc : c ∈ comps)
    (hf : field ∈ i18n_fields c) (hs : s ∈ fieldTexts c field) :
    s ∈ textsOfComps comps := by
  unfold textsOfComps
  exact List.mem_flatMap.mpr ⟨c, hc, List.mem_flatMap.mpr ⟨field, hf, hs⟩⟩

theorem fieldTexts_val (c : Component) (field : String) (s : String)
    (m : Bool) (hfc : field ≠ "choices")
    (ha : alookup c.attrs field = some (.val (.str s m))) :
    fieldTexts c field = [s] := by
  have hb : (field == "choices") = false := beq_eq_false_iff_ne.mpr hfc
  unfold fieldTexts fieldTranslatableValues
  simp [hb, ha, Val.text]

theorem choicesAttr_eq (c : Component) (es : List Entry)
    (ha : alookup c.attrs "choices" = some (.clist es)) :
    choicesAttr c = .clist es := by
  unfold choicesAttr
  rw [ha]
  rfl

theorem fieldTexts_choices_mem (c : Component) (es : List Entry) (i : Nat)
    (ha : alookup c.attrs "choices" = some (.clist es))
    (hi : i ∈ i18n_choice_indices (.clist es)) :
    ((es.getD i (.plain (.obj 0))).display).text ∈ fieldTexts c "choices" := by
  unfold fieldTexts fieldTranslatableValues
  rw [choicesAttr_eq c es ha]
  simp only [beq_self_eq_true, if_true, List.mem_map]
  exact ⟨displayAt (.clist es) i, ⟨i, hi, rfl⟩, rfl⟩

theorem translateVal_id (t : Table) (lg s : String) (m : Bool)
    (hid : tableGet t lg s = some s) :
    translateVal t lg (.str s m) = .str s false := by
  simp only [translateVal]
  rw [hid]

theorem translateEntry_entryIdOK (t : Table) (lg : String) (idxs : List Nat)
    (i : Nat) (e : Entry)
    (hmark : idxs.contains i = true → e.display.isMarked = true)
    (hid : idxs.contains i = true →
      tableGet t lg (e.display).text = some (e.display).text) :
    entryIdOK e (translateEntry t lg idxs i e) := by
  by_cases hc : idxs.contains i = true
  · have hm := hmark hc
    have hi := hid hc
    rcases e with v | ⟨k, v⟩
    · rcases v with ⟨s, mm⟩ | n
      · simp only [Entry.display, Val.text] at hi
        simp only [translateEntry, if_pos hc, entryIdOK]
        refine Or.inr ⟨translateVal t lg (.str s mm), rfl, ?_⟩
        rw [translateVal_id t lg s mm hi]
        simp [Val.pyEq]
      · simp [Entry.display, Val.isMarked] at hm
    · rcases k with ⟨s, mm⟩ | n
      · simp only [Entry.display, Val.text] at hi
        simp only [translateEntry, if_pos hc, entryIdOK]
        rw [translateVal_id t lg s mm hi]
        have hfst : Val.pyEq (.str s mm) (.str s false) = true := by
          simp [Val.pyEq]
        simp [Entry.pyEq, hfst]
      · simp [Entry.display, Val.isMarked] at hm
  · simp only [translateEntry, if_neg hc]
    rcases e with v | ⟨k, v⟩
    · exact Or.inl rfl
    · simp [entryIdOK]

/-- Claim C2 (amended): under a table that maps every discovered key to
itself, the language-change rebuild succeeds on every discovered component
with one update per translatable field; every non-`choices` field's new
value is Python-equal to the original, every `choices` entry that was a pair
is Python-equal to the original, and a plain `choices` entry at a
translatable position becomes a (display, value) pair whose display is
Python-equal to — and whose value half is — the original entry. -/
theorem identity_round_trip_amended (b : Block) (t : Table) (lg : String)
    (hwf : b.WF)
    (hid : ∀ s ∈ discoveredTexts b, tableGet t lg s = some s) :
    ∀ c ∈ i18n_components b,
      on_lang_change_comp t lg c =
        .ok ((i18n_fields c).map (fun f => (f, newAttrOf t lg c f))) ∧
      ∀ f ∈ i18n_fields c, fieldIdOK c f (newAttrOf t lg c f) := by
  intro c hc
  have hwfc : c.WF := hwf.2 c hc
  constructor
  · unfold on_lang_change_comp
    simp only [blockEqPyStr, Bool.false_and, Bool.false_eq_true, if_false]
    exact mapM_ok_of_forall _ _ _
      (fun f hf => modifyField_ok t lg c f hwfc hf)
  · intro f hf
    rcases i18n_field_shape c f hwfc hf with ⟨hfc, es, ha⟩ | ⟨hfc, s, ha⟩
    · subst hfc
      constructor
      · intro hne
        exact absurd rfl hne
      · intro _
        refine ⟨es, translateEntries t lg es, ha, ?_,
          translateEntries_length t lg es, ?_⟩
        · unfold newAttrOf
          simp [ha]
        · intro i hi
          rw [translateEntries_getD t lg es i hi]
          apply translateEntry_entryIdOK
          · intro hcont
            have hmem : i ∈ i18n_choice_indices (.clist es) := by
              simpa [List.elem_iff] using hcont
            exact (choice_index_sound es i hmem).2
          · intro hcont
            have hmem : i ∈ i18n_choice_indices (.clist es) := by
              simpa [List.elem_iff] using hcont
            apply hid
            exact mem_textsOfComps _ c "choices" _ hc hf
              (fieldTexts_choices_mem c es i ha hmem)
    · constructor
      · intro _
        refine ⟨.val (.str s true), ha, ?_⟩
        have hb : (f == "choices") = false := beq_eq_false_iff_ne.mpr hfc
        unfold newAttrOf
        simp only [hb, Bool.false_eq_true, if_false, ha]
        have hids : tableGet t lg s = some s := by
          apply hid
          exact mem_textsOfComps _ c f s hc hf
            (by rw [fieldTexts_val c f s true hfc ha]; simp)
        rw [translateVal_id t lg s true hids]
        simp [Attr.pyEq, Val.pyEq]
      · intro hcontra
        exact absurd hcontra hfc

/-- Claim C2 (counterexample): under a table mapping every discovered key of
the tree to itself, a plain marked `choices` entry is rebuilt as a
(display, value) *pair*, so the new `choices` field value is neither
Python-equal nor structurally equal to the original field value. -/
theorem identity_round_trip_cex :
    (∀ s ∈ discoveredTexts
        (.leaf ⟨1, [("choices",
          .clist [.plain (.str "x" false), .plain (.str "a" true)])]⟩),
      tableGet [("en", [("a", "a"), ("x", "x")])] "en" s = some s) ∧
    on_lang_change_comp [("en", [("a", "a"), ("x", "x")])] "en"
        ⟨1, [("choices",
          .clist [.plain (.str "x" false), .plain (.str "a" true)])]⟩ =
      .ok [("choices", .clist [.plain (.str "x" false),
        .pair (.str "a" false) (.str "a" true)])] ∧
    Attr.pyEq
        (.clist [.plain (.str "x" false),
          .pair (.str "a" false) (.str "a" true)])
        (.clist [.plain (.str "x" false), .plain (.str "a" true)]) = false ∧
    (Attr.clist [.plain (.str "x" false),
        .pair (.str "a" false) (.str "a" true)] ≠
      Attr.clist [.plain (.str "x" false), .plain (.str "a" true)]) := by
  exact ⟨by decide, rfl, rfl, by decide⟩

theorem identity_round_trip_check :
    on_lang_change_comp [("en", [("a", "a")])] "en"
        ⟨1, [("label", .val (.str "a" true))]⟩ =
      .ok ((i18n_fields ⟨1, [("label", .val (.str "a" true))]⟩).map
        (fun f => (f, newAttrOf [("en", [("a", "a")])] "en"
          ⟨1, [("label", .val (.str "a" true))]⟩ f))) ∧
    ∀ f ∈ i18n_fields (⟨1, [("label", .val (.str "a" true))]⟩ : Component),
      fieldIdOK ⟨1, [("label", .val (.str "a" true))]⟩ f
        (newAttrOf [("en", [("a", "a")])] "en"
          ⟨1, [("label", .val (.str "a" true))]⟩ f) :=
  identity_round_trip_amended (.leaf ⟨1, [("label", .val (.str "a" true))]⟩)
    [("en", [("a", "a")])] "en" (by decide) (by decide)
    ⟨1, [("label", .val (.str "a" true))]⟩ (by decide)

end GradioI18n
